import Mathlib

/-!
Verification of the Neurabot real-time candle aggregation store
(src/data/ws_candles.py) and its orchestration (src/bot.py).

Python floats are embedded as rationals (ℚ) and epoch-millisecond
timestamps as integers (ℤ).  `collections.deque` with a `maxlen` is
embedded as a list plus the bound, with append discarding from the front.
-/

namespace Neurabot

/-- src/data/ws_candles.py, `class Candle`: open time in ms since epoch
and the four OHLC prices. -/
structure Candle where
  t : Int
  o : ℚ
  h : ℚ
  l : ℚ
  c : ℚ
deriving DecidableEq, Repr

/-- The suffix of the last `n` elements of a list (Python `list[-n:]` for
`n ≥ 1`). -/
def lastN {α : Type} (n : Nat) (l : List α) : List α :=
  l.drop (l.length - n)

/-- Appending one element to a `collections.deque` with `maxlen`:
when full, the element at the opposite end is discarded. -/
def dequeAppend (maxlen : Nat) (l : List Candle) (c : Candle) : List Candle :=
  lastN maxlen (l ++ [c])

/-- `bucket_start = ts_ms - (ts_ms % self.bucket_ms)` from
`CandleHistory.add_trade` (src/data/ws_candles.py line 77); Python `%` on a
positive modulus agrees with `Int.emod`. -/
def bucketOf (bucket_ms ts_ms : Int) : Int :=
  ts_ms - ts_ms % bucket_ms

/-- The body of `CandleHistory.add_trade` acting on the candle deque
(src/data/ws_candles.py lines 75-87): if the deque is empty or the last
candle is not in the trade's bucket, append a fresh candle (the deque
evicting its oldest element when full); otherwise update the last candle
in place. -/
def addTradeL (bucket_ms : Int) (maxlen : Nat) (l : List Candle)
    (ts_ms : Int) (price : ℚ) : List Candle :=
  let bucket_start := bucketOf bucket_ms ts_ms
  match l.getLast? with
  | none =>
      dequeAppend maxlen l ⟨bucket_start, price, price, price, price⟩
  | some last =>
      if last.t ≠ bucket_start then
        dequeAppend maxlen l ⟨bucket_start, price, price, price, price⟩
      else
        l.dropLast ++
          [{ last with h := max last.h price, l := min last.l price, c := price }]

/-- src/data/ws_candles.py, `class CandleHistory`: a rolling candle deque
per coin plus the bucket width.  The deque is always created by
`WsCandleStore._ensure_history` with `maxlen = max_candles`; that bound is
carried here as the field `maxlen`. -/
structure CandleHistory where
  candles : List Candle
  bucket_ms : Int
  maxlen : Nat
deriving DecidableEq, Repr

/-- `CandleHistory.add_trade(ts_ms, price)` (src/data/ws_candles.py
lines 75-87). -/
def CandleHistory.add_trade (hist : CandleHistory) (ts_ms : Int) (price : ℚ) :
    CandleHistory :=
  { hist with candles := addTradeL hist.bucket_ms hist.maxlen hist.candles ts_ms price }

/-- `CandleHistory.get_last(limit)` (src/data/ws_candles.py lines 89-90):
`list(self.candles)[-limit:]`.  For `limit = 0` the Python slice `[-0:]`
is `[0:]`, i.e. the whole list. -/
def CandleHistory.get_last (hist : CandleHistory) (limit : Nat) : List Candle :=
  if limit = 0 then hist.candles
  else lastN limit hist.candles

/-- Folding a sequence of `(timestamp_ms, price)` trades into a history by
repeated `add_trade`. -/
def foldTrades (hist : CandleHistory) (trades : List (Int × ℚ)) : CandleHistory :=
  trades.foldl (fun acc p => acc.add_trade p.1 p.2) hist

/-- The error that the spec says a double `start` reports.  The code in
src/data/ws_candles.py never constructs it (see `WsCandleStore.start`). -/
inductive WsError where
  | alreadyRunning
deriving DecidableEq, Repr

/-- A decoded trade record from a `"trades"` message
(src/data/ws_candles.py lines 130-141).  Each field is `none` when the key
is missing from the dict; for `px` and `time` the inner `Option` is `none`
when `float(px_str)` resp. `int(ts)` raises. -/
structure TradeRec where
  coin : Option String
  px : Option (Option ℚ)
  time : Option (Option Int)
deriving DecidableEq, Repr

/-- The per-record validation of `WsCandleStore._handle_msg`
(src/data/ws_candles.py lines 131-138): skip the record if the coin is
missing or empty (`not coin`), if `px` or `time` is missing, or if the
price/timestamp fails to parse (the `except` branch). -/
def TradeRec.parse (r : TradeRec) : Option (String × ℚ × Int) :=
  match r.coin, r.px, r.time with
  | some coin, some px, some ts =>
      if coin = "" then none
      else
        match px, ts with
        | some price, some ts_ms => some (coin, price, ts_ms)
        | _, _ => none
  | _, _, _ => none

/-- A record survives `_handle_msg`'s per-record validation. -/
def TradeRec.wellFormed (r : TradeRec) : Bool :=
  r.parse.isSome

/-- src/data/ws_candles.py, `class WsCandleStore` (mutable attributes;
the asyncio lock and task handle carry no candle state and are not
modelled). -/
structure WsCandleStore where
  bucket_ms : Int
  max_candles : Nat
  histories : List (String × CandleHistory)
  running : Bool
  subscribed_coins : List String
deriving DecidableEq, Repr

/-- Dict lookup on the `symbol → history` mapping. -/
def histLookup (hs : List (String × CandleHistory)) (coin : String) :
    Option CandleHistory :=
  match hs with
  | [] => none
  | (k, v) :: rest => if k = coin then some v else histLookup rest coin

/-- Dict update on the `symbol → history` mapping. -/
def histInsert (hs : List (String × CandleHistory)) (coin : String)
    (hist : CandleHistory) : List (String × CandleHistory) :=
  match hs with
  | [] => [(coin, hist)]
  | (k, v) :: rest =>
      if k = coin then (k, hist) :: rest else (k, v) :: histInsert rest coin hist

/-- `WsCandleStore._ensure_history(coin)` (src/data/ws_candles.py
lines 105-111): the existing history, or a fresh one with an empty deque of
`maxlen = max_candles`. -/
def WsCandleStore.ensure_history (s : WsCandleStore) (coin : String) :
    CandleHistory :=
  match histLookup s.histories coin with
  | some hist => hist
  | none => { candles := [], bucket_ms := s.bucket_ms, maxlen := s.max_candles }

/-- Processing one trade record inside `_handle_msg`'s loop
(src/data/ws_candles.py lines 130-144): a record that fails validation
leaves the store unchanged (`continue`); a valid one is folded into its
coin's (lazily created) history. -/
def WsCandleStore.processTrade (s : WsCandleStore) (r : TradeRec) :
    WsCandleStore :=
  match r.parse with
  | none => s
  | some (coin, price, ts_ms) =>
      { s with histories :=
          histInsert s.histories coin ((s.ensure_history coin).add_trade ts_ms price) }

/-- A decoded websocket message: the `channel` key and, for the payload,
`some batch` when `msg.get("data")` is a (truthy) list and `none`
otherwise. -/
structure WsMsg where
  channel : Option String
  data : Option (List TradeRec)
deriving Repr

/-- `WsCandleStore._handle_msg(msg)` (src/data/ws_candles.py
lines 113-146): acks and non-`"trades"` channels are ignored, a non-list
payload is ignored, and each record of a trade batch is processed in
order. -/
def WsCandleStore.handle_msg (s : WsCandleStore) (msg : WsMsg) : WsCandleStore :=
  if msg.channel = some "subscriptionResponse" then s
  else if msg.channel ≠ some "trades" then s
  else
    match msg.data with
    | none => s
    | some batch => batch.foldl WsCandleStore.processTrade s

/-- `WsCandleStore.start(coins)` (src/data/ws_candles.py lines 190-198).
When already running the code prints `"[WS_CANDLES] Already running"` and
returns normally; the `Except` codomain records that no exception is
raised on either path. -/
def WsCandleStore.start (s : WsCandleStore) (coins : List String) :
    Except WsError WsCandleStore :=
  if s.running then Except.ok s
  else Except.ok { s with running := true, subscribed_coins := coins }

/-- `WsCandleStore.get_candles(coin, limit)` (src/data/ws_candles.py
lines 211-216): empty for an unknown coin, else `get_last(limit)`. -/
def WsCandleStore.get_candles (s : WsCandleStore) (coin : String)
    (limit : Nat) : List Candle :=
  match histLookup s.histories coin with
  | none => []
  | some hist => hist.get_last limit

/-- One observable event of the reconnect loop `WsCandleStore._ws_loop`
(src/data/ws_candles.py lines 158-188): a successful
connect-and-subscribe, or an exception. -/
inductive WsEvent where
  | connectSuccess
  | connectFailure
deriving DecidableEq, Repr

/-- The evolution of `reconnect_count` in `_ws_loop`: reset to 0 after the
subscriptions are sent (line 173), incremented on every exception
(line 184). -/
def wsStep (count : Nat) : WsEvent → Nat
  | WsEvent.connectSuccess => 0
  | WsEvent.connectFailure => count + 1

/-- `backoff = min(5 * reconnect_count, 60)` (src/data/ws_candles.py
line 185), the seconds slept before the next attempt. -/
def backoffDelay (count : Nat) : Nat :=
  min (5 * count) 60

/-- The reconnect counter after a sequence of loop events, starting from
`reconnect_count = 0` (line 158). -/
def countAfterEvents (events : List WsEvent) : Nat :=
  events.foldl wsStep 0

/-- Modelled from the spec: `seed_candles` is invoked as
`ws_store.seed_candles(coin, hist)` at src/bot.py line 50 but has no
implementation in `WsCandleStore` (src/data/ws_candles.py).  Following
spec section 4.3, `seed(symbol, historical_candles)` merges an
already-sorted oldest-first candle sequence into the history: every candle
whose `bucket_start` is strictly older than the live tail's bucket is
inserted ahead of the tail, each candle at or after the tail's bucket is
individually rejected, and the tail itself is unchanged; with no live tail
the whole sequence is adopted. -/
def CandleHistory.seed_candles (hist : CandleHistory) (cs : List Candle) :
    CandleHistory :=
  match hist.candles.getLast? with
  | none => { hist with candles := cs }
  | some tail =>
      { hist with candles :=
          hist.candles.dropLast ++
            cs.filter (fun c => decide (c.t < tail.t)) ++ [tail] }

/-- Modelled from the spec: the store-level seed operation called by
src/bot.py line 50; resolves or lazily creates the symbol's history (as
`_ensure_history` does for trades) and merges the historical candles into
it. -/
def WsCandleStore.seed_candles (s : WsCandleStore) (coin : String)
    (cs : List Candle) : WsCandleStore :=
  { s with histories :=
      histInsert s.histories coin ((s.ensure_history coin).seed_candles cs) }

/-- Spec-side model (spec section 4.1) of the trade-folding algorithm with
no retention bound: append a fresh candle for a new bucket, update the
last candle for the same bucket, never evict.  Used to state that the
code's bounded deque keeps exactly the most recent candles. -/
def addTradeU (bucket_ms : Int) (l : List Candle) (ts_ms : Int)
    (price : ℚ) : List Candle :=
  let bucket_start := bucketOf bucket_ms ts_ms
  match l.getLast? with
  | none => l ++ [⟨bucket_start, price, price, price, price⟩]
  | some last =>
      if last.t ≠ bucket_start then
        l ++ [⟨bucket_start, price, price, price, price⟩]
      else
        l.dropLast ++
          [{ last with h := max last.h price, l := min last.l price, c := price }]

/-- Spec-side unbounded fold of a trade sequence, starting from an empty
history. -/
def foldTradesU (bucket_ms : Int) (trades : List (Int × ℚ)) : List Candle :=
  trades.foldl (fun acc p => addTradeU bucket_ms acc p.1 p.2) []

/-- A two-candle history whose tail bucket (900000) has superseded the
first bucket (0); used to exhibit what a late trade does. -/
def lateHistory : CandleHistory :=
  { candles := [⟨0, 100, 105, 95, 95⟩, ⟨900000, 100, 100, 100, 100⟩],
    bucket_ms := 900000, maxlen := 200 }

/-- A store that has already been started. -/
def runningStore : WsCandleStore :=
  { bucket_ms := 900000, max_candles := 200, histories := [],
    running := true, subscribed_coins := ["BTC"] }

/-- A never-started store with no histories. -/
def emptyStore : WsCandleStore :=
  { bucket_ms := 900000, max_candles := 200, histories := [],
    running := false, subscribed_coins := [] }

/-- A store holding a single one-candle history for `"BTC"`. -/
def oneCandleStore : WsCandleStore :=
  { bucket_ms := 900000, max_candles := 200,
    histories := [("BTC", ⟨[⟨0, 100, 105, 95, 95⟩], 900000, 200⟩)],
    running := true, subscribed_coins := ["BTC"] }

/-- A store holding a history whose live tail sits at bucket 900000. -/
def seedStore : WsCandleStore :=
  { bucket_ms := 900000, max_candles := 200,
    histories := [("BTC", ⟨[⟨900000, 10, 10, 10, 10⟩], 900000, 200⟩)],
    running := false, subscribed_coins := [] }

/-! ## Helper lemmas -/

theorem histLookup_histInsert (hs : List (String × CandleHistory))
    (coin : String) (hist : CandleHistory) :
    histLookup (histInsert hs coin hist) coin = some hist := by
  induction hs with
  | nil => simp [histInsert, histLookup]
  | cons p rest ih =>
    obtain ⟨k, v⟩ := p
    by_cases hk : k = coin
    · simp [histInsert, histLookup, hk]
    · simp [histInsert, histLookup, hk, ih]

theorem foldl_wsStep_replicate (k s : Nat) :
    (List.replicate k WsEvent.connectFailure).foldl wsStep s = s + k := by
  induction k generalizing s with
  | zero => simp [List.foldl]
  | succ n ih =>
    rw [List.replicate_succ, List.foldl_cons, ih]
    simp [wsStep]
    omega

theorem countAfterEvents_replicate_failure (k : Nat) :
    countAfterEvents (List.replicate k WsEvent.connectFailure) = k := by
  unfold countAfterEvents
  rw [foldl_wsStep_replicate]
  omega

theorem processTrade_malformed (s : WsCandleStore) (r : TradeRec)
    (hr : r.parse = none) : s.processTrade r = s := by
  simp [WsCandleStore.processTrade, hr]

theorem foldl_processTrade_filter (batch : List TradeRec) (s : WsCandleStore) :
    batch.foldl WsCandleStore.processTrade s
      = (batch.filter TradeRec.wellFormed).foldl WsCandleStore.processTrade s := by
  induction batch generalizing s with
  | nil => rfl
  | cons r rest ih =>
    by_cases hr : r.wellFormed
    · rw [List.filter_cons_of_pos hr, List.foldl_cons, List.foldl_cons, ih]
    · have hnone : r.parse = none := by
        rcases hp : r.parse with _ | v
        · rfl
        · exact absurd (by simp [TradeRec.wellFormed, hp]) hr
      rw [List.filter_cons_of_neg (by simpa using hr), List.foldl_cons,
        processTrade_malformed s r hnone, ih]

theorem bucketOf_eq_mul_ediv (m ts : Int) : bucketOf m ts = m * (ts / m) := by
  unfold bucketOf
  rw [Int.emod_def]
  ring

theorem bucketOf_mono (m a b : Int) (hm : 0 < m) (hab : a ≤ b) :
    bucketOf m a ≤ bucketOf m b := by
  rw [bucketOf_eq_mul_ediv, bucketOf_eq_mul_ediv]
  exact mul_le_mul_of_nonneg_left (Int.ediv_le_ediv hm hab) hm.le

/-- Every element of a strictly increasing candle list is at most the last
element in bucket start. -/
theorem pairwise_le_getLast (l : List Candle) (z : Candle)
    (hp : l.Pairwise (fun a b => a.t < b.t))
    (hz : l.getLast? = some z) :
    ∀ x ∈ l, x.t ≤ z.t := by
  induction l with
  | nil => cases hz
  | cons a rest ih =>
    rcases List.pairwise_cons.mp hp with ⟨ha, hrest⟩
    cases rest with
    | nil =>
      intro x hx
      have haz : a = z := by simpa using hz
      have hxa : x = a := by simpa using hx
      rw [hxa, haz]
    | cons b rest2 =>
      have hz2 : (b :: rest2).getLast? = some z := by
        rw [List.getLast?_cons_cons] at hz
        exact hz
      have hzin : z ∈ b :: rest2 := by
        obtain ⟨hne, hzl⟩ := List.mem_getLast?_eq_getLast (Option.mem_def.mpr hz2)
        rw [hzl]
        exact List.getLast_mem hne
      intro x hx
      rcases List.mem_cons.mp hx with hxa | hxr
      · rw [hxa]
        exact (ha z hzin).le
      · exact ih hrest hz2 x hxr

/-- The OHLC price invariant of a single candle. -/
def candleOHLC (c : Candle) : Prop :=
  c.l ≤ c.o ∧ c.o ≤ c.h ∧ c.l ≤ c.c ∧ c.c ≤ c.h

/-- The history invariant: strictly increasing bucket starts (no duplicate
bucket) and valid OHLC prices in every candle. -/
def histInvL (l : List Candle) : Prop :=
  l.Pairwise (fun a b => a.t < b.t) ∧ ∀ c ∈ l, candleOHLC c

theorem dequeAppend_sublist (M : Nat) (l : List Candle) (c : Candle) :
    (dequeAppend M l c).Sublist (l ++ [c]) := by
  unfold dequeAppend lastN
  exact List.drop_sublist _ _

theorem dequeAppend_getLast? (M : Nat) (hM : 1 ≤ M) (l : List Candle)
    (c : Candle) :
    (dequeAppend M l c).getLast? = some c := by
  unfold dequeAppend lastN
  rw [List.drop_append_eq_append_drop]
  have h0 : (l ++ [c]).length - M - l.length = 0 := by
    rw [List.length_append]
    simp only [List.length_cons, List.length_nil]
    omega
  rw [h0, List.drop_zero, List.getLast?_concat]

/-- Appending a candle whose bucket is newer than everything in a valid
history preserves the invariant, and the appended candle becomes the
tail (when anything survives the deque bound at all). -/
theorem dequeAppend_inv (M : Nat) (l : List Candle) (c : Candle)
    (hinv : histInvL l) (hc : candleOHLC c)
    (hlt : ∀ x ∈ l, x.t < c.t) :
    histInvL (dequeAppend M l c) ∧
    ∀ z, (dequeAppend M l c).getLast? = some z → z = c := by
  have hpw : (l ++ [c]).Pairwise (fun a b => a.t < b.t) := by
    rw [List.pairwise_append]
    refine ⟨hinv.1, by simp, ?_⟩
    intro a ha b hb
    simp only [List.mem_singleton] at hb
    rw [hb]
    exact hlt a ha
  have hsub := dequeAppend_sublist M l c
  refine ⟨⟨hpw.sublist hsub, ?_⟩, ?_⟩
  · intro x hx
    rcases List.mem_append.mp (hsub.subset hx) with h | h
    · exact hinv.2 x h
    · simp only [List.mem_singleton] at h
      rw [h]
      exact hc
  · intro z hz
    cases M with
    | zero =>
      exfalso
      have hempty : dequeAppend 0 l c = [] := by
        unfold dequeAppend lastN
        rw [Nat.sub_zero, List.drop_length]
      rw [hempty] at hz
      cases hz
    | succ n =>
      rw [dequeAppend_getLast? (n + 1) (by omega) l c] at hz
      exact (Option.some_inj.mp hz).symm

/-- One `add_trade` step preserves the history invariant, provided the
trade's bucket is at least the tail's bucket; afterwards the tail (if any)
sits exactly at the trade's bucket. -/
theorem addTradeL_inv (m : Int) (M : Nat) (l : List Candle) (ts : Int) (px : ℚ)
    (hinv : histInvL l)
    (hlast : ∀ z, l.getLast? = some z → z.t ≤ bucketOf m ts) :
    histInvL (addTradeL m M l ts px) ∧
    ∀ z, (addTradeL m M l ts px).getLast? = some z → z.t = bucketOf m ts := by
  induction l using List.reverseRecOn with
  | nil =>
    have h := dequeAppend_inv M []
      (⟨bucketOf m ts, px, px, px, px⟩ : Candle)
      ⟨List.Pairwise.nil, by simp⟩ ⟨le_rfl, le_rfl, le_rfl, le_rfl⟩ (by simp)
    refine ⟨h.1, fun z hz => ?_⟩
    rw [h.2 z hz]
  | append_singleton xs x _ =>
    have hU : (xs ++ [x]).getLast? = some x := List.getLast?_concat _
    have hxle : x.t ≤ bucketOf m ts := hlast x hU
    simp only [addTradeL, hU]
    by_cases hbt : x.t ≠ bucketOf m ts
    · rw [if_pos hbt]
      have hxlt : x.t < bucketOf m ts := lt_of_le_of_ne hxle hbt
      have hlt : ∀ y ∈ xs ++ [x], y.t < bucketOf m ts := by
        intro y hy
        have hyx : y.t ≤ x.t := pairwise_le_getLast (xs ++ [x]) x hinv.1 hU y hy
        omega
      have h := dequeAppend_inv M (xs ++ [x])
        (⟨bucketOf m ts, px, px, px, px⟩ : Candle) hinv
        ⟨le_rfl, le_rfl, le_rfl, le_rfl⟩ hlt
      refine ⟨h.1, fun z hz => ?_⟩
      rw [h.2 z hz]
    · rw [if_neg hbt]
      push_neg at hbt
      rw [List.dropLast_concat]
      have hxohlc : candleOHLC x := hinv.2 x (by simp)
      have hupd_ohlc : candleOHLC
          { x with h := max x.h px, l := min x.l px, c := px } := by
        obtain ⟨h1, h2, h3, h4⟩ := hxohlc
        exact ⟨le_trans (min_le_left _ _) h1, le_trans h2 (le_max_left _ _),
          min_le_right _ _, le_max_right _ _⟩
      have hcross : ∀ y ∈ xs, y.t < x.t := by
        intro y hy
        exact (List.pairwise_append.mp hinv.1).2.2 y hy x (by simp)
      refine ⟨⟨?_, ?_⟩, ?_⟩
      · rw [List.pairwise_append]
        refine ⟨(List.pairwise_append.mp hinv.1).1, by simp, ?_⟩
        intro a ha b hb
        simp only [List.mem_singleton] at hb
        rw [hb]
        exact hcross a ha
      · intro c hc
        rcases List.mem_append.mp hc with h | h
        · exact hinv.2 c (List.mem_append.mpr (Or.inl h))
        · simp only [List.mem_singleton] at h
          rw [h]
          exact hupd_ohlc
      · intro z hz
        rw [List.getLast?_concat] at hz
        rw [← Option.some_inj.mp hz]
        exact hbt

/-- Folding a non-decreasing trade sequence preserves the history
invariant. -/
theorem foldl_addTradeL_inv (m : Int) (M : Nat) (hm : 0 < m) :
    ∀ (trades : List (Int × ℚ)) (l : List Candle),
      trades.Chain' (fun a b => a.1 ≤ b.1) →
      histInvL l →
      (∀ z, l.getLast? = some z → ∀ p, trades.head? = some p →
        z.t ≤ bucketOf m p.1) →
      histInvL (trades.foldl (fun acc p => addTradeL m M acc p.1 p.2) l) := by
  intro trades
  induction trades with
  | nil =>
    intro l _ hinv _
    exact hinv
  | cons p ps ih =>
    intro l hchain hinv hlast
    rw [List.foldl_cons]
    have hstep := addTradeL_inv m M l p.1 p.2 hinv (fun z hz => hlast z hz p rfl)
    refine ih _ (List.chain'_cons'.mp hchain).2 hstep.1 ?_
    intro z hz q hq
    rw [hstep.2 z hz]
    refine bucketOf_mono m p.1 q.1 hm ?_
    exact (List.chain'_cons'.mp hchain).1 q (Option.mem_def.mpr hq)

theorem foldTrades_mk (m : Int) (M : Nat) (trades : List (Int × ℚ)) :
    ∀ l : List Candle,
      foldTrades ⟨l, m, M⟩ trades
        = ⟨trades.foldl (fun acc p => addTradeL m M acc p.1 p.2) l, m, M⟩ := by
  induction trades with
  | nil =>
    intro l
    rfl
  | cons p ps ih =>
    intro l
    show foldTrades (CandleHistory.add_trade ⟨l, m, M⟩ p.1 p.2) ps = _
    rw [show CandleHistory.add_trade ⟨l, m, M⟩ p.1 p.2
        = (⟨addTradeL m M l p.1 p.2, m, M⟩ : CandleHistory) from rfl]
    rw [ih (addTradeL m M l p.1 p.2)]
    rfl

/-! ## Claim theorems -/

/-- C8: folding the trades (t=0ms, px=100), (t=1ms, px=105), (t=2ms, px=95)
into an empty `CandleHistory` with a 15-minute (900000 ms) bucket width
yields exactly one candle with bucket start 0, open=100, high=105, low=95,
close=95. -/
theorem c8_three_trades_one_candle :
    (foldTrades ⟨[], 900000, 200⟩ [((0 : Int), (100 : ℚ)), (1, 105), (2, 95)]).candles
      = [⟨0, 100, 105, 95, 95⟩] := by decide

/-- C5: for every symbol not present in the store's symbol-to-history
mapping and every limit, `get_candles` returns the empty sequence (and,
being a total function, never raises). -/
theorem c5_unknown_symbol_empty (s : WsCandleStore) (coin : String)
    (limit : Nat) (hnone : histLookup s.histories coin = none) :
    s.get_candles coin limit = [] := by
  simp [WsCandleStore.get_candles, hnone]

/-- C5 witness: querying a never-seen symbol on a concrete empty store. -/
theorem c5_unknown_symbol_empty_witness :
    histLookup emptyStore.histories "ETH" = none ∧
    emptyStore.get_candles "ETH" 50 = [] :=
  ⟨rfl, c5_unknown_symbol_empty emptyStore "ETH" 50 rfl⟩

/-- C4 counterexample: calling `start` on a store that is already running
does not produce `AlreadyRunningError`; the code only prints
`"[WS_CANDLES] Already running"` and returns normally
(src/data/ws_candles.py lines 191-193), so the claimed failure is absent. -/
theorem c4_counterexample :
    runningStore.start ["BTC", "ETH"] ≠ Except.error WsError.alreadyRunning := by
  simp [WsCandleStore.start, runningStore]

/-- C4 (amended): calling `start(symbols)` on a store that is already
running returns normally without any error (it is silently ignored except
for a log line), and leaves the store's state — running flag, subscribed
symbols, histories — entirely unchanged. -/
theorem c4_double_start_noop (s : WsCandleStore) (coins : List String)
    (hrun : s.running = true) :
    s.start coins = Except.ok s := by
  simp [WsCandleStore.start, hrun]

/-- C4 witness: double start on a concrete running store. -/
theorem c4_double_start_noop_witness :
    runningStore.running = true ∧
    runningStore.start ["BTC", "ETH"] = Except.ok runningStore :=
  ⟨rfl, c4_double_start_noop runningStore ["BTC", "ETH"] rfl⟩

/-- C10: for a non-empty history, `get_last 0` returns all stored candles
(Python `[-0:]` is the whole list), hence `get_candles(coin, 0)` for a
known symbol returns everything rather than an empty sequence. -/
theorem c10_get_last_zero_returns_all (s : WsCandleStore) (coin : String)
    (hist : CandleHistory)
    (hfound : histLookup s.histories coin = some hist)
    (hne : hist.candles ≠ []) :
    hist.get_last 0 = hist.candles ∧
    s.get_candles coin 0 = hist.candles ∧
    s.get_candles coin 0 ≠ [] := by
  have h0 : hist.get_last 0 = hist.candles := by
    simp [CandleHistory.get_last]
  refine ⟨h0, ?_, ?_⟩ <;>
    simp [WsCandleStore.get_candles, hfound, h0, hne]

/-- C10 witness: `get_last 0` on a concrete one-candle store. -/
theorem c10_get_last_zero_returns_all_witness :
    histLookup oneCandleStore.histories "BTC"
      = some ⟨[⟨0, 100, 105, 95, 95⟩], 900000, 200⟩ ∧
    (([⟨0, 100, 105, 95, 95⟩] : List Candle) ≠ []) ∧
    ((⟨[⟨0, 100, 105, 95, 95⟩], 900000, 200⟩ : CandleHistory).get_last 0
        = [⟨0, 100, 105, 95, 95⟩] ∧
      oneCandleStore.get_candles "BTC" 0 = [⟨0, 100, 105, 95, 95⟩] ∧
      oneCandleStore.get_candles "BTC" 0 ≠ []) :=
  ⟨rfl, by decide,
    c10_get_last_zero_returns_all oneCandleStore "BTC" _ rfl (by decide)⟩

/-- C6: the reconnect delay after the k-th consecutive failure is
min(5*k, 60) seconds, monotonically non-decreasing in k; the counter
resets to 0 on a successful connect-and-subscribe, so the delay after the
next failure is back to the base value 5. -/
theorem c6_backoff_linear_capped :
    (∀ k : Nat,
      backoffDelay (countAfterEvents (List.replicate k WsEvent.connectFailure))
        = min (5 * k) 60) ∧
    (∀ j k : Nat, j ≤ k →
      backoffDelay (countAfterEvents (List.replicate j WsEvent.connectFailure))
        ≤ backoffDelay (countAfterEvents (List.replicate k WsEvent.connectFailure))) ∧
    (∀ count : Nat,
      backoffDelay (wsStep (wsStep count WsEvent.connectSuccess) WsEvent.connectFailure)
        = 5) := by
  refine ⟨?_, ?_, ?_⟩
  · intro k
    rw [countAfterEvents_replicate_failure]
    rfl
  · intro j k hjk
    rw [countAfterEvents_replicate_failure, countAfterEvents_replicate_failure]
    unfold backoffDelay
    exact min_le_min (Nat.mul_le_mul_left 5 hjk) le_rfl
  · intro count
    rfl

/-- C6 witness: the delay after the 13th consecutive failure is capped at
60, delays are non-decreasing from the 2nd to the 13th failure, and after
a successful connection the next failure's delay is back to 5 seconds. -/
theorem c6_backoff_linear_capped_witness :
    backoffDelay (countAfterEvents (List.replicate 13 WsEvent.connectFailure))
      = min (5 * 13) 60 ∧
    ((2 : Nat) ≤ 13 ∧
      backoffDelay (countAfterEvents (List.replicate 2 WsEvent.connectFailure))
        ≤ backoffDelay (countAfterEvents (List.replicate 13 WsEvent.connectFailure))) ∧
    backoffDelay (wsStep (wsStep 7 WsEvent.connectSuccess) WsEvent.connectFailure)
      = 5 :=
  ⟨c6_backoff_linear_capped.1 13,
    ⟨by decide, c6_backoff_linear_capped.2.1 2 13 (by decide)⟩,
    c6_backoff_linear_capped.2.2 7⟩

/-- C7: handling a `"trades"` message over a batch of records yields the
same store as handling the batch with its malformed records removed: each
record missing its coin, price, or timestamp, or with an unparsable price
or timestamp, is dropped individually while the rest of the batch is still
processed. -/
theorem c7_malformed_records_dropped (s : WsCandleStore) (batch : List TradeRec) :
    s.handle_msg ⟨some "trades", some batch⟩
      = s.handle_msg ⟨some "trades", some (batch.filter TradeRec.wellFormed)⟩ := by
  have h1 : ¬ ((some "trades" : Option String) = some "subscriptionResponse") := by
    decide
  have h2 : ¬ ((some "trades" : Option String) ≠ some "trades") := by decide
  simp only [WsCandleStore.handle_msg, if_neg h1, if_neg h2]
  exact foldl_processTrade_filter batch s

/-- C1 counterexample: the claim says a trade whose bucket is older than
the tail bucket is dropped with the candle sequence unchanged; on
`lateHistory` (tail bucket 900000) the trade at t=10ms (bucket 0) instead
changes the sequence — a new candle is appended. -/
theorem c1_counterexample :
    (lateHistory.add_trade 10 50).candles ≠ lateHistory.candles := by decide

/-- C1 (amended): a late trade whose computed bucket B1 is older than the
tail bucket B2 never modifies any existing candle — in particular the
earlier candle with bucket_start B1 stays untouched — but the trade is not
dropped: a fresh candle with bucket_start B1 and open=high=low=close=price
is appended after the tail (here with room in the deque, so no eviction),
so the candle sequence changes and loses bucket_start monotonicity. -/
theorem c1_late_trade_opens_stale_bucket (hist : CandleHistory) (ts_ms : Int)
    (price : ℚ) (last : Candle)
    (hlast : hist.candles.getLast? = some last)
    (hold : bucketOf hist.bucket_ms ts_ms < last.t)
    (hroom : hist.candles.length < hist.maxlen) :
    (hist.add_trade ts_ms price).candles
      = hist.candles
          ++ [⟨bucketOf hist.bucket_ms ts_ms, price, price, price, price⟩] := by
  have hne : last.t ≠ bucketOf hist.bucket_ms ts_ms := ne_of_gt hold
  show addTradeL hist.bucket_ms hist.maxlen hist.candles ts_ms price = _
  simp only [addTradeL, hlast, if_pos hne]
  have hz : hist.candles.length + 1 - hist.maxlen = 0 := by omega
  simp [dequeAppend, lastN, hz]

/-- C1 witness: the late trade at t=10ms, px=50 on `lateHistory`. -/
theorem c1_late_trade_opens_stale_bucket_witness :
    lateHistory.candles.getLast? = some ⟨900000, 100, 100, 100, 100⟩ ∧
    bucketOf lateHistory.bucket_ms 10 < (Candle.mk 900000 100 100 100 100).t ∧
    lateHistory.candles.length < lateHistory.maxlen ∧
    (lateHistory.add_trade 10 50).candles
      = lateHistory.candles
          ++ [⟨bucketOf lateHistory.bucket_ms 10, 50, 50, 50, 50⟩] :=
  ⟨by decide, by decide, by decide,
    c1_late_trade_opens_stale_bucket lateHistory 10 50
      ⟨900000, 100, 100, 100, 100⟩ (by decide) (by decide) (by decide)⟩

/-- C2: the seed operation (spec-modelled; called as
`ws_store.seed_candles(coin, hist)` from src/bot.py but absent from
src/data/ws_candles.py) merges a sorted oldest-first historical candle
sequence into the symbol's history: after seeding, the history holds
exactly the candles strictly older than the live tail's bucket inserted
ahead of the tail, every candle at or after the tail's bucket is rejected,
and the tail is unchanged and still the tail. -/
theorem c2_seed_merges_older_rejects_newer (s : WsCandleStore) (coin : String)
    (cs : List Candle) (hist : CandleHistory) (tail : Candle)
    (hfound : histLookup s.histories coin = some hist)
    (htail : hist.candles.getLast? = some tail)
    (hsorted : cs.Pairwise (fun a b => a.t ≤ b.t)) :
    ∃ hist2,
      histLookup (s.seed_candles coin cs).histories coin = some hist2 ∧
      hist2.candles
        = hist.candles.dropLast
            ++ cs.filter (fun c => decide (c.t < tail.t)) ++ [tail] ∧
      hist2.candles.getLast? = some tail := by
  refine ⟨(s.ensure_history coin).seed_candles cs, ?_, ?_, ?_⟩
  · simp [WsCandleStore.seed_candles, histLookup_histInsert]
  · simp [WsCandleStore.ensure_history, hfound, CandleHistory.seed_candles, htail]
  · show (CandleHistory.seed_candles (s.ensure_history coin) cs).candles.getLast? = _
    simp only [WsCandleStore.ensure_history, hfound, CandleHistory.seed_candles, htail]
    rw [List.append_assoc]
    rw [List.getLast?_append]
    simp

/-- C2 witness: seeding two candles (one strictly older than the tail
bucket, one at the tail bucket) into a concrete one-candle history. -/
theorem c2_seed_merges_older_rejects_newer_witness :
    histLookup seedStore.histories "BTC"
      = some ⟨[⟨900000, 10, 10, 10, 10⟩], 900000, 200⟩ ∧
    ([(⟨900000, 10, 10, 10, 10⟩ : Candle)]).getLast?
      = some ⟨900000, 10, 10, 10, 10⟩ ∧
    ([⟨0, 1, 2, 0, 1⟩, ⟨900000, 5, 5, 5, 5⟩] : List Candle).Pairwise
      (fun a b => a.t ≤ b.t) ∧
    ∃ hist2,
      histLookup
        (seedStore.seed_candles "BTC"
          [⟨0, 1, 2, 0, 1⟩, ⟨900000, 5, 5, 5, 5⟩]).histories "BTC" = some hist2 ∧
      hist2.candles
        = ([⟨900000, 10, 10, 10, 10⟩] : List Candle).dropLast
            ++ ([⟨0, 1, 2, 0, 1⟩, ⟨900000, 5, 5, 5, 5⟩] : List Candle).filter
                (fun c => decide (c.t < (Candle.mk 900000 10 10 10 10).t))
            ++ [⟨900000, 10, 10, 10, 10⟩] ∧
      hist2.candles.getLast? = some ⟨900000, 10, 10, 10, 10⟩ :=
  ⟨rfl, by decide, by decide,
    c2_seed_merges_older_rejects_newer seedStore "BTC"
      [⟨0, 1, 2, 0, 1⟩, ⟨900000, 5, 5, 5, 5⟩]
      ⟨[⟨900000, 10, 10, 10, 10⟩], 900000, 200⟩
      ⟨900000, 10, 10, 10, 10⟩ rfl (by decide) (by decide)⟩

/-- C3: folding any sequence of trades with non-decreasing timestamps into
one fresh `CandleHistory` yields a candle sequence strictly increasing in
bucket_start (no duplicate bucket) in which every candle satisfies
low ≤ open ≤ high and low ≤ close ≤ high. -/
theorem c3_monotone_trades_invariant (m : Int) (M : Nat)
    (trades : List (Int × ℚ)) (hm : 0 < m)
    (hchain : trades.Chain' (fun a b => a.1 ≤ b.1)) :
    (foldTrades ⟨[], m, M⟩ trades).candles.Pairwise (fun a b => a.t < b.t) ∧
    ∀ c ∈ (foldTrades ⟨[], m, M⟩ trades).candles,
      c.l ≤ c.o ∧ c.o ≤ c.h ∧ c.l ≤ c.c ∧ c.c ≤ c.h := by
  rw [foldTrades_mk]
  have h := foldl_addTradeL_inv m M hm trades [] hchain
    ⟨List.Pairwise.nil, by simp⟩ (fun z hz => by simp at hz)
  exact ⟨h.1, fun c hc => h.2 c hc⟩

/-- C3 witness: three non-decreasing trades spanning two buckets. -/
theorem c3_monotone_trades_invariant_witness :
    (0 : Int) < 900000 ∧
    ([((0 : Int), (100 : ℚ)), (1, 105), (900000, 50)].Chain'
      (fun a b => a.1 ≤ b.1)) ∧
    ((foldTrades ⟨[], 900000, 200⟩
        [((0 : Int), (100 : ℚ)), (1, 105), (900000, 50)]).candles.Pairwise
        (fun a b => a.t < b.t) ∧
      ∀ c ∈ (foldTrades ⟨[], 900000, 200⟩
          [((0 : Int), (100 : ℚ)), (1, 105), (900000, 50)]).candles,
        c.l ≤ c.o ∧ c.o ≤ c.h ∧ c.l ≤ c.c ∧ c.c ≤ c.h) :=
  ⟨by decide, by norm_num [List.chain'_cons],
    c3_monotone_trades_invariant 900000 200 _ (by decide)
      (by norm_num [List.chain'_cons])⟩

theorem lastN_length_le {α : Type} (n : Nat) (l : List α) :
    (lastN n l).length ≤ n := by
  unfold lastN
  rw [List.length_drop]
  omega

theorem lastN_nil {α : Type} (n : Nat) : lastN n ([] : List α) = [] := by
  unfold lastN
  simp

theorem lastN_append_singleton {α : Type} (n : Nat) (hn : 1 ≤ n)
    (l : List α) (c : α) :
    lastN n (l ++ [c]) = lastN (n - 1) l ++ [c] := by
  unfold lastN
  rw [List.drop_append_eq_append_drop]
  have h2 : (l ++ [c]).length - n - l.length = 0 := by
    rw [List.length_append]
    simp only [List.length_cons, List.length_nil]
    omega
  have h3 : (l ++ [c]).length - n = l.length - (n - 1) := by
    rw [List.length_append]
    simp only [List.length_cons, List.length_nil]
    omega
  rw [h2, List.drop_zero, h3]

theorem lastN_lastN {α : Type} (k n : Nat) (l : List α) :
    lastN k (lastN n l) = lastN (min k n) l := by
  unfold lastN
  rw [List.drop_drop, List.length_drop]
  congr 1
  omega

theorem lastN_getLast? {α : Type} (n : Nat) (hn : 1 ≤ n) (l : List α) :
    (lastN n l).getLast? = l.getLast? := by
  induction l using List.reverseRecOn with
  | nil => rw [lastN_nil]
  | append_singleton xs x _ =>
    rw [lastN_append_singleton n hn xs x, List.getLast?_concat,
      List.getLast?_concat]

/-- The bounded (deque) trade-fold step agrees with the spec-side
unbounded step followed by truncation to the most recent `M` candles. -/
theorem addTradeL_lastN_comm (m : Int) (M : Nat) (hM : 1 ≤ M)
    (l : List Candle) (ts : Int) (px : ℚ) :
    addTradeL m M (lastN M l) ts px = lastN M (addTradeU m l ts px) := by
  induction l using List.reverseRecOn with
  | nil =>
    rw [lastN_nil]
    show dequeAppend M [] _ = lastN M ([] ++ [_])
    rw [dequeAppend]
  | append_singleton xs x _ =>
    have hL : (lastN M (xs ++ [x])).getLast? = some x := by
      rw [lastN_getLast? M hM, List.getLast?_concat]
    have hU : (xs ++ [x]).getLast? = some x := List.getLast?_concat _
    simp only [addTradeL, addTradeU, hL, hU]
    by_cases hbt : x.t ≠ bucketOf m ts
    · rw [if_pos hbt, if_pos hbt]
      rw [dequeAppend]
      rw [lastN_append_singleton M hM, lastN_lastN,
        Nat.min_eq_left (by omega), lastN_append_singleton M hM]
    · rw [if_neg hbt, if_neg hbt]
      rw [lastN_append_singleton M hM, List.dropLast_concat,
        List.dropLast_concat, lastN_append_singleton M hM]

theorem foldl_addTradeL_lastN (m : Int) (M : Nat) (hM : 1 ≤ M)
    (trades : List (Int × ℚ)) :
    ∀ l : List Candle,
      trades.foldl (fun acc p => addTradeL m M acc p.1 p.2) (lastN M l)
        = lastN M (trades.foldl (fun acc p => addTradeU m acc p.1 p.2) l) := by
  induction trades with
  | nil =>
    intro l
    rfl
  | cons p ps ih =>
    intro l
    rw [List.foldl_cons, List.foldl_cons, addTradeL_lastN_comm m M hM l p.1 p.2]
    exact ih (addTradeU m l p.1 p.2)

/-- C9: for any trade sequence (with non-decreasing timestamps) folded
into a fresh history with bound `max_candles = M`, the history holds at
most M candles; those candles are exactly the last M candles of the
unbounded spec-side fold (the most recent ones, oldest evicted first);
`get_last (M + 10)` returns all of them in stored (oldest-first,
strictly-increasing) order. -/
theorem c9_retention_bounded_fifo (m : Int) (M : Nat)
    (trades : List (Int × ℚ)) (hm : 0 < m) (hM : 1 ≤ M)
    (hchain : trades.Chain' (fun a b => a.1 ≤ b.1)) :
    (foldTrades ⟨[], m, M⟩ trades).candles.length ≤ M ∧
    (foldTrades ⟨[], m, M⟩ trades).candles = lastN M (foldTradesU m trades) ∧
    (foldTrades ⟨[], m, M⟩ trades).get_last (M + 10)
      = (foldTrades ⟨[], m, M⟩ trades).candles ∧
    (foldTrades ⟨[], m, M⟩ trades).candles.Pairwise (fun a b => a.t < b.t) := by
  have hcand : (foldTrades ⟨[], m, M⟩ trades).candles
      = lastN M (foldTradesU m trades) := by
    rw [foldTrades_mk]
    show trades.foldl _ [] = _
    rw [show ([] : List Candle) = lastN M [] from (lastN_nil M).symm]
    exact foldl_addTradeL_lastN m M hM trades []
  have hlen : (foldTrades ⟨[], m, M⟩ trades).candles.length ≤ M := by
    rw [hcand]
    exact lastN_length_le M _
  have hpw : (foldTrades ⟨[], m, M⟩ trades).candles.Pairwise
      (fun a b => a.t < b.t) := by
    rw [foldTrades_mk]
    exact (foldl_addTradeL_inv m M hm trades [] hchain
      ⟨List.Pairwise.nil, by simp⟩ (fun z hz => by simp at hz)).1
  refine ⟨hlen, hcand, ?_, hpw⟩
  show (if M + 10 = 0 then _ else lastN (M + 10) _) = _
  rw [if_neg (by omega)]
  unfold lastN
  rw [Nat.sub_eq_zero_of_le (hlen.trans (by omega)), List.drop_zero]

/-- C9 witness: two trades spanning two distinct buckets with
`max_candles = 1`: the older bucket is evicted. -/
theorem c9_retention_bounded_fifo_witness :
    (0 : Int) < 900000 ∧ (1 : Nat) ≤ 1 ∧
    ([((0 : Int), (100 : ℚ)), (900000, 50)].Chain' (fun a b => a.1 ≤ b.1)) ∧
    ((foldTrades ⟨[], 900000, 1⟩
        [((0 : Int), (100 : ℚ)), (900000, 50)]).candles.length ≤ 1 ∧
      (foldTrades ⟨[], 900000, 1⟩
          [((0 : Int), (100 : ℚ)), (900000, 50)]).candles
        = lastN 1 (foldTradesU 900000 [((0 : Int), (100 : ℚ)), (900000, 50)]) ∧
      (foldTrades ⟨[], 900000, 1⟩
          [((0 : Int), (100 : ℚ)), (900000, 50)]).get_last (1 + 10)
        = (foldTrades ⟨[], 900000, 1⟩
            [((0 : Int), (100 : ℚ)), (900000, 50)]).candles ∧
      (foldTrades ⟨[], 900000, 1⟩
          [((0 : Int), (100 : ℚ)), (900000, 50)]).candles.Pairwise
        (fun a b => a.t < b.t)) :=
  ⟨by decide, by decide, by norm_num [List.chain'_cons],
    c9_retention_bounded_fifo 900000 1 _ (by decide) (by decide)
      (by norm_num [List.chain'_cons])⟩

end Neurabot
